import Mathlib

/-
Verification of the board-state and move-application engine of the
sgf-to-image repository: a shallow embedding of `Board.ts`,
`board/applyMoves.ts` and the overwritten-label filtering step of
`index.ts`, together with proofs about their behaviour.

Coordinates are integers (JS numbers restricted to the integral values
the code ever produces), so that out-of-range and negative queries are
expressible.  Thrown JS `Error`s are modelled with `Except String`.
-/

set_option maxHeartbeats 1000000

namespace SgfToImage

/-- Stone colors on the board, from `types.ts`: `'black' | 'white' | 'empty'`. -/
inductive StoneColor where
  | black
  | white
  | empty
deriving DecidableEq, Repr

/-- Board position `{x, y}` from `types.ts`: 0-based, x left to right, y top to bottom. -/
structure Position where
  x : Int
  y : Int
deriving DecidableEq, Repr

/-- A move from `types.ts`: a color, an optional position (`none` encodes a pass move)
and the 1-based move number in the original game record. -/
structure Move where
  color : StoneColor
  position : Option Position
  moveNumber : Nat
deriving DecidableEq, Repr

/-- The board grid stored by `Board.ts`: `StoneColor[][]`, row-major (`grid[y][x]`). -/
abbrev Grid := List (List StoneColor)

/-- An immutable Go board, from `Board.ts`: a size and an N by N grid. -/
structure Board where
  size : Nat
  grid : Grid
deriving DecidableEq, Repr

namespace Board

/-- The `isValidPosition` check of `Board.ts`:
`x >= 0 && x < size && y >= 0 && y < size`. -/
def isValidPosition (b : Board) (p : Position) : Bool :=
  0 ≤ p.x && p.x < (b.size : Int) && 0 ≤ p.y && p.y < (b.size : Int)

/-- Raw cell read `grid[y][x]`; only ever reached behind an `isValidPosition` guard,
so the defaults stand for the out-of-bounds reads JS would never perform here. -/
def cellAt (g : Grid) (p : Position) : StoneColor :=
  (g.getD p.y.toNat []).getD p.x.toNat .empty

/-- The `getStone` method of `Board.ts`: `empty` for any invalid position,
otherwise `grid[y][x]`. -/
def getStone (b : Board) (p : Position) : StoneColor :=
  if b.isValidPosition p then cellAt b.grid p else .empty

/-- The `getNeighbors` method of `Board.ts`: up, down, left, right offsets,
clipped to valid board positions. -/
def getNeighbors (b : Board) (p : Position) : List Position :=
  [(⟨p.x, p.y - 1⟩ : Position), ⟨p.x, p.y + 1⟩, ⟨p.x - 1, p.y⟩, ⟨p.x + 1, p.y⟩].filter
    (fun n => b.isValidPosition n)

/-- One cell write `newGrid[y][x] = c` of `Board.ts`, performed on a fresh grid copy. -/
def setCell (g : Grid) (p : Position) (c : StoneColor) : Grid :=
  g.set p.y.toNat ((g.getD p.y.toNat []).set p.x.toNat c)

/-- The candidate board `placeStone` builds before capture resolution
(`Board.ts`: copy the grid, set the placed stone). -/
def afterPlacement (b : Board) (p : Position) (c : StoneColor) : Board :=
  ⟨b.size, setCell b.grid p c⟩

/-- The body of the `removeStones` loop of `Board.ts`: set every valid listed
position of the grid copy to `empty`, in order. -/
def removeLoop (b : Board) : List Position → Grid → Grid
  | [], g => g
  | pos :: rest, g =>
    removeLoop b rest (if b.isValidPosition pos then setCell g pos .empty else g)

/-- The `removeStones` method of `Board.ts`: a new board with each listed valid
position set to `empty`; invalid positions are silently ignored. -/
def removeStones (b : Board) (positions : List Position) : Board :=
  ⟨b.size, removeLoop b positions b.grid⟩

/-- One round of the `getGroup` while loop of `Board.ts`, with fuel bounding the
iteration count.  The stack top is the list head; freshly pushed neighbors are
reversed so the pop order matches the JS `Array.pop` (last pushed, first popped).
The pushed neighbors are those not yet in the visited set, as in the source. -/
def getGroupLoop (b : Board) (col : StoneColor) :
    Nat → List Position → List Position → List Position → List Position
  | 0, _, _, group => group
  | _ + 1, [], _, group => group
  | fuel + 1, current :: stack, visited, group =>
    if current ∈ visited then
      getGroupLoop b col fuel stack visited group
    else
      if b.getStone current = col then
        getGroupLoop b col fuel
          (((b.getNeighbors current).filter (fun n => n ∉ current :: visited)).reverse ++ stack)
          (current :: visited) (group ++ [current])
      else
        getGroupLoop b col fuel stack (current :: visited) group

/-- Fuel sufficient for the flood fill to run to completion: each iteration either
pops a stale stack entry or visits a new valid cell (pushing at most four
neighbors), so `5 * size * size + 2` iterations always reach the empty stack. -/
def groupFuel (b : Board) : Nat :=
  5 * b.size * b.size + 2

/-- The `getGroup` method of `Board.ts`: the connected same-color component of a
position via an explicit-stack flood fill; `[]` when the start cell is empty. -/
def getGroup (b : Board) (p : Position) : List Position :=
  if b.getStone p = .empty then []
  else getGroupLoop b (b.getStone p) (groupFuel b) [p] [] []

/-- The liberties collected by `hasLiberties` in `Board.ts`: every empty neighbor
of a group member (the JS code stores them in a `Set`, of which only emptiness is
observed). -/
def libertiesOf (b : Board) (group : List Position) : List Position :=
  group.flatMap (fun pos => (b.getNeighbors pos).filter (fun n => b.getStone n = .empty))

/-- The `hasLiberties` method of `Board.ts`: the liberty set is non-empty. -/
def hasLiberties (b : Board) (group : List Position) : Bool :=
  !(b.libertiesOf group).isEmpty

/-- The opponent color computed inside `placeStone`:
`color === 'black' ? 'white' : 'black'`. -/
def opponentOf (c : StoneColor) : StoneColor :=
  if c = .black then .white else .black

/-- The capture scan of `placeStone` (`Board.ts`): for each neighbor of the placed
stone holding the opponent color, remove that neighbor's group when it has no
liberties.  The neighbor list is computed on the pre-move board, as in the source. -/
def resolveCaptures (opp : StoneColor) : Board → List Position → Board
  | bd, [] => bd
  | bd, n :: rest =>
    resolveCaptures opp
      (if bd.getStone n = opp then
        (if bd.hasLiberties (bd.getGroup n) then bd else bd.removeStones (bd.getGroup n))
      else bd) rest

/-- The board state reached by `placeStone` after the placed stone is set and all
opponent captures are resolved, before the suicide check. -/
def boardAfterCapturesOf (b : Board) (p : Position) (c : StoneColor) : Board :=
  resolveCaptures (opponentOf c) (afterPlacement b p c) (b.getNeighbors p)

/-- The `placeStone` method of `Board.ts`: validity, occupancy and color guards,
candidate placement, opponent-capture resolution, then the suicide check.
Thrown `Error`s are modelled as `Except.error`. -/
def placeStone (b : Board) (p : Position) (c : StoneColor) : Except String Board :=
  if b.isValidPosition p = false then
    .error ("Invalid position: " ++ toString p.x ++ ", " ++ toString p.y)
  else if b.getStone p ≠ .empty then
    .error ("Position already occupied: " ++ toString p.x ++ ", " ++ toString p.y)
  else if c = .empty then
    .error "Cannot place empty stone"
  else
    if (boardAfterCapturesOf b p c).hasLiberties
        ((boardAfterCapturesOf b p c).getGroup p) = false then
      .error ("Suicide move not allowed: " ++ toString p.x ++ ", " ++ toString p.y)
    else
      .ok (boardAfterCapturesOf b p c)

/-- The `Board.empty` factory of `Board.ts`, for sizes the constructor accepts:
an all-empty size by size grid. -/
def emptyBoard (size : Nat) : Board :=
  ⟨size, List.replicate size (List.replicate size .empty)⟩

/-- The constructor guard of `Board.ts`: sizes outside 1..25 throw. -/
def create (size : Nat) : Except String Board :=
  if size < 1 ∨ 25 < size then
    .error ("Invalid board size: " ++ toString size ++ ". Must be between 1 and 25")
  else
    .ok (emptyBoard size)

/-- Grid well-formedness: the invariant the `Board.ts` constructor establishes and
every operation preserves (size many rows, each of length size). -/
def WF (b : Board) : Prop :=
  b.grid.length = b.size ∧ ∀ row ∈ b.grid, row.length = b.size

end Board

/-- The `OverwrittenLabel` record of `applyMoves.ts`. -/
structure OverwrittenLabel where
  originalMove : Nat
  overwrittenByMove : Nat
  position : Position
deriving DecidableEq, Repr

/-- The `ApplyMovesResult` record of `applyMoves.ts`. -/
structure ApplyMovesResult where
  board : Board
  appliedMoves : List Move
  overwrittenLabels : List OverwrittenLabel
deriving DecidableEq, Repr

/-- Model of the JS `Map<string, number>` keyed by the `"x,y"` position string
(injective in the coordinates, so keys are `Position`s here): an association list
in insertion order.  `set` overwrites in place as a JS `Map` does, `delete`
removes, `get` looks up. -/
abbrev PosMap := List (Position × Nat)

/-- JS `Map.get`. -/
def mapGet (m : PosMap) (k : Position) : Option Nat :=
  (m.find? (fun e => e.1 == k)).map (fun e => e.2)

/-- JS `Map.set`: overwrite in place when the key exists, else append. -/
def mapSet (m : PosMap) (k : Position) (v : Nat) : PosMap :=
  if m.any (fun e => e.1 == k) then
    m.map (fun e => if e.1 == k then (k, v) else e)
  else m ++ [(k, v)]

/-- JS `Map.delete`. -/
def mapDelete (m : PosMap) (k : Position) : PosMap :=
  m.filter (fun e => !(e.1 == k))

/-- The mutable state of the `applyMoves` loop in `applyMoves.ts`. -/
structure ApplyState where
  board : Board
  appliedMoves : List Move
  overwrittenLabels : List OverwrittenLabel
  movePositionMap : PosMap
deriving Repr

/-- The `findCapturedPositions` helper of `applyMoves.ts`: row-major scan for
cells holding a stone before the move and empty after it. -/
def findCapturedPositions (beforeBoard afterBoard : Board) : List Position :=
  (List.range beforeBoard.size).flatMap (fun y =>
    (List.range beforeBoard.size).filterMap (fun x =>
      if beforeBoard.getStone ⟨(x : Int), (y : Int)⟩ ≠ .empty ∧
          afterBoard.getStone ⟨(x : Int), (y : Int)⟩ = .empty then
        some (⟨(x : Int), (y : Int)⟩ : Position)
      else none))

/-- The capture bookkeeping of `applyMoves.ts`: for every captured position still
in the ownership map, append an `OverwrittenLabel` and delete the map entry. -/
def recordCaptures (moveNumber : Nat) (captured : List Position) (st : ApplyState) :
    ApplyState :=
  captured.foldl (fun st cp =>
    match mapGet st.movePositionMap cp with
    | some capturedMove =>
      { st with
        overwrittenLabels := st.overwrittenLabels ++ [⟨capturedMove, moveNumber, cp⟩],
        movePositionMap := mapDelete st.movePositionMap cp }
    | none => st) st

/-- One iteration of the `applyMoves` loop of `applyMoves.ts`: pass moves are
recorded as applied; otherwise a reuse `OverwrittenLabel` is appended when the
ownership map already holds the target position, then the placement is attempted
and, on success, the applied move, ownership entry and capture records are added.
A failed placement leaves everything but the already-appended reuse record as is. -/
def applyMovesStep (st : ApplyState) (move : Move) : ApplyState :=
  match move.position with
  | none => { st with appliedMoves := st.appliedMoves ++ [move] }
  | some pos =>
    let st1 :=
      match mapGet st.movePositionMap pos with
      | some previousMove =>
        { st with
          overwrittenLabels :=
            st.overwrittenLabels ++ [(⟨previousMove, move.moveNumber, pos⟩ : OverwrittenLabel)] }
      | none => st
    match st1.board.placeStone pos move.color with
    | .error _ => st1
    | .ok newBoard =>
      recordCaptures move.moveNumber (findCapturedPositions st1.board newBoard)
        { st1 with
          board := newBoard,
          appliedMoves := st1.appliedMoves ++ [move],
          movePositionMap := mapSet st1.movePositionMap pos move.moveNumber }

/-- The `selectMoves` helper of `applyMoves.ts`: filter by move-number range when
given, then truncate to the first `moveIndex` entries when given. -/
def selectMoves (moves : List Move) (range : Option (Nat × Nat))
    (moveIndex : Option Nat) : List Move :=
  let afterRange :=
    match range with
    | some r => moves.filter (fun m => r.1 ≤ m.moveNumber && m.moveNumber ≤ r.2)
    | none => moves
  match moveIndex with
  | some i => afterRange.take i
  | none => afterRange

/-- The `applyMoves` function of `applyMoves.ts`: fold the per-move step over the
selected moves and package the final state. -/
def applyMoves (board : Board) (moves : List Move) (moveRange : Option (Nat × Nat))
    (moveIndex : Option Nat) : ApplyMovesResult :=
  let finalState := (selectMoves moves moveRange moveIndex).foldl applyMovesStep
    (⟨board, [], [], []⟩ : ApplyState)
  ⟨finalState.board, finalState.appliedMoves, finalState.overwrittenLabels⟩

/-- One iteration of the unranged branch of `generateMoveLabels`: label every
positioned move with its own move number. -/
def plainLabelStep (labels : PosMap) (m : Move) : PosMap :=
  match m.position with
  | some pos => mapSet labels pos m.moveNumber
  | none => labels

/-- One iteration of the ranged branch of `generateMoveLabels`: in-range
positioned moves receive the running sequential label, which is then bumped. -/
def rangeLabelStep (startMove endMove : Nat) (acc : PosMap × Nat) (m : Move) :
    PosMap × Nat :=
  match m.position with
  | some pos =>
    if startMove ≤ m.moveNumber && m.moveNumber ≤ endMove then
      (mapSet acc.1 pos acc.2, acc.2 + 1)
    else acc
  | none => acc

/-- The `generateMoveLabels` function of `applyMoves.ts`: with no range every
positioned applied move is labeled with its own move number; with a range the
in-range positioned moves receive sequential labels starting from 1. -/
def generateMoveLabels (appliedMoves : List Move) (moveRange : Option (Nat × Nat)) :
    PosMap :=
  match moveRange with
  | none => appliedMoves.foldl plainLabelStep []
  | some r => (appliedMoves.foldl (rangeLabelStep r.1 r.2) ([], 1)).1

/-- The `formatOverwrittenLabels` function of `applyMoves.ts`. -/
def formatOverwrittenLabels (ols : List OverwrittenLabel) : List String :=
  ols.map (fun l => toString l.originalMove ++ " at " ++ toString l.overwrittenByMove)

/-- The visible display numbers collected by `convertSgfToImage` in `index.ts`:
every positive value of the displayed label map. -/
def visibleDisplayNumbers (labels : PosMap) : List Nat :=
  (labels.map (fun e => e.2)).filter (fun v => decide (0 < v))

/-- The overwritten-label filtering step of `convertSgfToImage` in `index.ts`:
keep only records whose `originalMove` is among the visible display numbers. -/
def filterOverwrittenLabels (ols : List OverwrittenLabel) (labels : PosMap) :
    List OverwrittenLabel :=
  ols.filter (fun l => (visibleDisplayNumbers labels).contains l.originalMove)

/-- Except-level try and catch: run the body, recover a thrown error with the
handler, as the `try { ... } catch (error) { ... }` of `applyMoves.ts` does. -/
def tryCatchE {α : Type} (body : Except String α) (handler : String → Except String α) :
    Except String α :=
  match body with
  | .ok a => .ok a
  | .error e => handler e

/-- One iteration of the `applyMoves` loop with the exception plumbing explicit:
the body containing `placeStone` may throw; the catch recovers with the state as
of the failed attempt (the already-appended reuse record included). -/
def applyMovesStepE (st : ApplyState) (move : Move) : Except String ApplyState :=
  match move.position with
  | none => .ok { st with appliedMoves := st.appliedMoves ++ [move] }
  | some pos =>
    let st1 :=
      match mapGet st.movePositionMap pos with
      | some previousMove =>
        { st with
          overwrittenLabels :=
            st.overwrittenLabels ++ [(⟨previousMove, move.moveNumber, pos⟩ : OverwrittenLabel)] }
      | none => st
    tryCatchE
      (do
        let newBoard ← st1.board.placeStone pos move.color
        pure (recordCaptures move.moveNumber (findCapturedPositions st1.board newBoard)
          { st1 with
            board := newBoard,
            appliedMoves := st1.appliedMoves ++ [move],
            movePositionMap := mapSet st1.movePositionMap pos move.moveNumber }))
      (fun _ => .ok st1)

/-- The `applyMoves` loop at the exception level: any error not caught by the
per-move catch would propagate to the caller as `Except.error`. -/
def applyMovesE (board : Board) (moves : List Move) (moveRange : Option (Nat × Nat))
    (moveIndex : Option Nat) : Except String ApplyMovesResult := do
  let finalState ← (selectMoves moves moveRange moveIndex).foldlM applyMovesStepE
    (⟨board, [], [], []⟩ : ApplyState)
  pure ⟨finalState.board, finalState.appliedMoves, finalState.overwrittenLabels⟩

/-- A heap of allocated grid objects, modelling the JS object store for the
no-mutation claims: a reference is an index into the allocation list. -/
abbrev Store := List Grid

/-- A board value as the JS runtime holds it: a size and a reference to a grid
object on the heap. -/
structure StoreBoard where
  size : Nat
  gridRef : Nat
deriving DecidableEq, Repr

/-- Dereference a grid object. -/
def readRef (st : Store) (r : Nat) : Grid := st.getD r []

/-- Allocate a fresh grid object (what `this.grid.map((row) => [...row])` does),
returning the extended store and the new reference. -/
def allocRef (st : Store) (g : Grid) : Store × Nat := (st ++ [g], st.length)

/-- Mutate the grid object behind a reference (what `newGrid[y][x] = c` does). -/
def writeRef (st : Store) (r : Nat) (g : Grid) : Store := st.set r g

/-- Read a stone through the store. -/
def getStoneS (st : Store) (b : StoreBoard) (p : Position) : StoneColor :=
  Board.getStone ⟨b.size, readRef st b.gridRef⟩ p

/-- The `removeStones` method at the store level: copy the receiver's grid into a
fresh allocation and mutate only that fresh copy; the receiver's grid object is
never written. -/
def removeStonesS (st : Store) (b : StoreBoard) (positions : List Position) :
    Store × StoreBoard :=
  let g := readRef st b.gridRef
  let alloc := allocRef st g
  (writeRef alloc.1 alloc.2 (Board.removeLoop ⟨b.size, g⟩ positions g), ⟨b.size, alloc.2⟩)

/-- The capture loop of `placeStone` at the store level: every removal goes
through `removeStonesS`, allocating a fresh grid object. -/
def resolveCapturesS (opp : StoneColor) :
    Store × StoreBoard → List Position → Store × StoreBoard
  | (st, cur), [] => (st, cur)
  | (st, cur), n :: rest =>
    resolveCapturesS opp
      (if (⟨cur.size, readRef st cur.gridRef⟩ : Board).getStone n = opp then
        (if (⟨cur.size, readRef st cur.gridRef⟩ : Board).hasLiberties
            ((⟨cur.size, readRef st cur.gridRef⟩ : Board).getGroup n) then (st, cur)
         else removeStonesS st cur
            ((⟨cur.size, readRef st cur.gridRef⟩ : Board).getGroup n))
      else (st, cur)) rest

/-- The `placeStone` method at the store level: the receiver's grid is copied into
a fresh allocation, the stone is written into the copy, captures are resolved
through further fresh copies, and the receiver's grid object is never written. -/
def placeStoneS (st : Store) (b : StoreBoard) (p : Position) (c : StoneColor) :
    Store × Except String StoreBoard :=
  if (⟨b.size, readRef st b.gridRef⟩ : Board).isValidPosition p = false then
    (st, .error ("Invalid position: " ++ toString p.x ++ ", " ++ toString p.y))
  else if (⟨b.size, readRef st b.gridRef⟩ : Board).getStone p ≠ .empty then
    (st, .error ("Position already occupied: " ++ toString p.x ++ ", " ++ toString p.y))
  else if c = .empty then
    (st, .error "Cannot place empty stone")
  else
    let alloc := allocRef st (readRef st b.gridRef)
    let st2 := writeRef alloc.1 alloc.2 (Board.setCell (readRef st b.gridRef) p c)
    let res := resolveCapturesS (Board.opponentOf c) (st2, ⟨b.size, alloc.2⟩)
      ((⟨b.size, readRef st b.gridRef⟩ : Board).getNeighbors p)
    if (⟨res.2.size, readRef res.1 res.2.gridRef⟩ : Board).hasLiberties
        ((⟨res.2.size, readRef res.1 res.2.gridRef⟩ : Board).getGroup p) = false then
      (res.1, .error ("Suicide move not allowed: " ++ toString p.x ++ ", " ++ toString p.y))
    else
      (res.1, .ok res.2)

namespace Board

/-- One orthogonal step between two cells both holding colour `col`: the
specification-side adjacency used to reason about the flood fill. -/
def Adj (b : Board) (col : StoneColor) (u v : Position) : Prop :=
  b.getStone u = col ∧ b.getStone v = col ∧ v ∈ b.getNeighbors u

/-- Connectivity through same-colour orthogonal steps: membership in the
connected component. -/
def Conn (b : Board) (col : StoneColor) : Position → Position → Prop :=
  Relation.ReflTransGen (Adj b col)

/-- One-sided step used for flood-fill soundness: from a cell of colour `col` to
any of its neighbours, whatever their colour. -/
def Touch (b : Board) (col : StoneColor) (u v : Position) : Prop :=
  b.getStone u = col ∧ v ∈ b.getNeighbors u

/-- Reachability by `Touch` steps. -/
def Reach (b : Board) (col : StoneColor) : Position → Position → Prop :=
  Relation.ReflTransGen (Touch b col)

/-- The finite set of valid positions of a board. -/
def validCells (b : Board) : Finset Position :=
  (Finset.range b.size ×ˢ Finset.range b.size).image
    (fun q => ⟨(q.1 : Int), (q.2 : Int)⟩)

end Board

/-- Invariant carried through the capture loop for the capture-before-suicide
proof: the board keeps its size and well-formedness, the placed stone stays put,
and the tracked adjacent opponent group is either already wholly removed or
still intact, set-equal to its original extent, and without liberties. -/
def CaptureInv (p : Position) (c : StoneColor) (n : Position) (G0 : List Position)
    (sz : Nat) (bd : Board) : Prop :=
  bd.size = sz ∧ Board.WF bd ∧ bd.getStone p = c ∧
    ((∀ z ∈ G0, bd.getStone z = .empty) ∨
     (bd.getStone n = Board.opponentOf c ∧
       (∀ z, z ∈ bd.getGroup n ↔ z ∈ G0) ∧
       bd.hasLiberties (bd.getGroup n) = false))

/-- An occupied cell is always a valid position, because `getStone` answers
`empty` for every invalid one. -/
lemma isValid_of_getStone_ne_empty (b : Board) (p : Position)
    (h : b.getStone p ≠ .empty) : b.isValidPosition p = true := by
  cases hv : b.isValidPosition p with
  | true => rfl
  | false => exact absurd (by simp [Board.getStone, hv]) h

/-- Attempting to place on an occupied cell fails with the occupied error. -/
lemma placeStone_occupied (b : Board) (p : Position) (c : StoneColor)
    (h : b.getStone p ≠ .empty) :
    b.placeStone p c =
      .error ("Position already occupied: " ++ toString p.x ++ ", " ++ toString p.y) := by
  have hv := isValid_of_getStone_ne_empty b p h
  simp [Board.placeStone, hv, h]

/-- Membership in `mapSet` comes from the old map or is the freshly set pair. -/
lemma mem_mapSet (m : PosMap) (k : Position) (v : Nat) (e : Position × Nat)
    (he : e ∈ mapSet m k v) : e ∈ m ∨ e = (k, v) := by
  unfold mapSet at he
  by_cases h : m.any (fun e => e.1 == k)
  · rw [if_pos h] at he
    rcases List.mem_map.1 he with ⟨e', he', heq⟩
    by_cases h2 : (e'.1 == k) = true
    · rw [if_pos h2] at heq
      exact Or.inr heq.symm
    · rw [if_neg h2] at heq
      exact Or.inl (heq ▸ he')
  · rw [if_neg h] at he
    rcases List.mem_append.1 he with h1 | h1
    · exact Or.inl h1
    · simp only [List.mem_singleton] at h1
      exact Or.inr h1

/-- The ranged label counter advances by exactly the number of in-range
positioned moves. -/
lemma rangeLabelStep_count (M N : Nat) (moves : List Move) :
    ∀ acc : PosMap × Nat,
      (moves.foldl (rangeLabelStep M N) acc).2 =
        acc.2 + (moves.filter (fun m =>
          m.position.isSome && decide (M ≤ m.moveNumber) &&
            decide (m.moveNumber ≤ N))).length := by
  induction moves with
  | nil => intro acc; simp
  | cons m rest ih =>
    intro acc
    rw [List.foldl_cons, List.filter_cons]
    cases hp : m.position with
    | none => simp [rangeLabelStep, hp, ih]
    | some pos =>
      by_cases hr : (decide (M ≤ m.moveNumber) && decide (m.moveNumber ≤ N)) = true
      · have : rangeLabelStep M N acc m = (mapSet acc.1 pos acc.2, acc.2 + 1) := by
          simp [rangeLabelStep, hp, hr]
        rw [this, ih]
        simp [hp, hr]
        omega
      · have : rangeLabelStep M N acc m = acc := by
          simp only [rangeLabelStep, hp]
          rw [if_neg hr]
        rw [this, ih]
        simp [hp, hr]

/-- Every label value produced by the ranged fold stays in the live window
between 1 and the running counter. -/
lemma rangeLabelStep_bound (M N : Nat) (moves : List Move) :
    ∀ acc : PosMap × Nat, 1 ≤ acc.2 → (∀ e ∈ acc.1, 1 ≤ e.2 ∧ e.2 < acc.2) →
      ∀ e ∈ (moves.foldl (rangeLabelStep M N) acc).1,
        1 ≤ e.2 ∧ e.2 < (moves.foldl (rangeLabelStep M N) acc).2 := by
  induction moves with
  | nil => intro acc _ h e he; exact h e he
  | cons m rest ih =>
    intro acc h1 h
    rw [List.foldl_cons]
    apply ih
    · cases hp : m.position with
      | none => simpa [rangeLabelStep, hp] using h1
      | some pos =>
        by_cases hr : (decide (M ≤ m.moveNumber) && decide (m.moveNumber ≤ N)) = true
        · simp [rangeLabelStep, hp, hr]
        · simp only [rangeLabelStep, hp]
          rw [if_neg hr]
          exact h1
    · intro e he
      cases hp : m.position with
      | none =>
        simp only [rangeLabelStep, hp] at he ⊢
        exact h e he
      | some pos =>
        by_cases hr : (decide (M ≤ m.moveNumber) && decide (m.moveNumber ≤ N)) = true
        · simp only [rangeLabelStep, hp, hr, if_pos] at he ⊢
          rcases mem_mapSet _ _ _ _ he with h2 | h2
        -- old entries stay below the bumped counter; the new entry is the counter
          · have := h e h2
            omega
          · rw [h2]
            simp
            omega
        · simp only [rangeLabelStep, hp] at he ⊢
          rw [if_neg hr] at he ⊢
          exact h e he

/-- Each `applyMoves` loop iteration at the exception level returns `ok` of the
total-function iteration: the catch recovers every `placeStone` failure. -/
lemma applyMovesStepE_ok (st : ApplyState) (move : Move) :
    applyMovesStepE st move = .ok (applyMovesStep st move) := by
  unfold applyMovesStepE applyMovesStep
  cases hp : move.position with
  | none => simp only [hp]
  | some pos =>
    simp only [hp]
    cases hm : mapGet st.movePositionMap pos with
    | none =>
      simp only [hm]
      cases hps : st.board.placeStone pos move.color <;>
        simp [tryCatchE, hps, Except.map]
    | some prev =>
      simp only [hm]
      cases hps : st.board.placeStone pos move.color <;>
        simp [tryCatchE, hps, Except.map]

/-- The exception-level fold never leaves the `ok` branch. -/
lemma foldlM_applyMovesStepE_ok (l : List Move) :
    ∀ st : ApplyState, l.foldlM applyMovesStepE st = .ok (l.foldl applyMovesStep st) := by
  induction l with
  | nil => intro st; rfl
  | cons m rest ih =>
    intro st
    rw [List.foldlM_cons, applyMovesStepE_ok]
    simpa using ih (applyMovesStep st m)

namespace Board

/-- Unfolding of the validity check into arithmetic on the coordinates. -/
lemma isValidPosition_iff (b : Board) (p : Position) :
    b.isValidPosition p = true ↔
      0 ≤ p.x ∧ p.x < (b.size : Int) ∧ 0 ≤ p.y ∧ p.y < (b.size : Int) := by
  unfold isValidPosition
  simp [and_assoc]

/-- Two valid positions with equal truncated coordinates are equal. -/
lemma valid_eq_of_toNat (b : Board) (p q : Position)
    (hp : b.isValidPosition p = true) (hq : b.isValidPosition q = true)
    (hx : p.x.toNat = q.x.toNat) (hy : p.y.toNat = q.y.toNat) : p = q := by
  rw [isValidPosition_iff] at hp hq
  cases p
  cases q
  simp only [Position.mk.injEq]
  simp only at hp hq hx hy
  omega

/-- getD after set at the written index. -/
lemma getD_set_self {α : Type} (l : List α) (n : Nat) (a d : α) (h : n < l.length) :
    (l.set n a).getD n d = a := by
  rw [List.getD_eq_getElem?_getD, List.getElem?_set_self' ]
  simp [List.getElem?_eq_getElem h]

/-- getD after set at a different index. -/
lemma getD_set_ne {α : Type} (l : List α) (n m : Nat) (a d : α) (h : n ≠ m) :
    (l.set n a).getD m d = l.getD m d := by
  rw [List.getD_eq_getElem?_getD, List.getD_eq_getElem?_getD, List.getElem?_set_ne h]

/-- Reading back the cell just written, on a well-formed grid. -/
lemma cellAt_setCell_self (sz : Nat) (g : Grid) (p : Position) (c : StoneColor)
    (hwf : WF ⟨sz, g⟩) (hv : (⟨sz, g⟩ : Board).isValidPosition p = true) :
    cellAt (setCell g p c) p = c := by
  obtain ⟨hx0, hx1, hy0, hy1⟩ := (isValidPosition_iff _ p).1 hv
  dsimp only at hx0 hx1 hy0 hy1
  have hglen : g.length = sz := hwf.1
  have hylen : p.y.toNat < g.length := by omega
  have hmem : g.getD p.y.toNat [] ∈ g := by
    rw [List.getD_eq_getElem?_getD, List.getElem?_eq_getElem hylen]
    exact List.getElem_mem hylen
  have hxlen : p.x.toNat < (g.getD p.y.toNat []).length := by
    have hrl : (g.getD p.y.toNat []).length = sz := hwf.2 _ hmem
    omega
  unfold cellAt setCell
  rw [getD_set_self _ _ _ _ hylen]
  exact getD_set_self _ _ _ _ hxlen

/-- Cells other than the written one are unaffected, on a well-formed grid. -/
lemma cellAt_setCell_ne (sz : Nat) (g : Grid) (p q : Position) (c : StoneColor)
    (hwf : WF ⟨sz, g⟩) (hvp : (⟨sz, g⟩ : Board).isValidPosition p = true)
    (hvq : (⟨sz, g⟩ : Board).isValidPosition q = true) (hne : q ≠ p) :
    cellAt (setCell g p c) q = cellAt g q := by
  unfold cellAt setCell
  by_cases hy : p.y.toNat = q.y.toNat
  · have hx : p.x.toNat ≠ q.x.toNat := by
      intro hx
      exact hne (valid_eq_of_toNat _ q p hvq hvp hx.symm hy.symm)
    obtain ⟨hx0, hx1, hy0, hy1⟩ := (isValidPosition_iff _ p).1 hvp
    have hylen : p.y.toNat < g.length := by
      rw [hwf.1]
      omega
    rw [← hy, getD_set_self _ _ _ _ hylen, getD_set_ne _ _ _ _ _ hx]
  · rw [getD_set_ne _ _ _ _ _ hy]

/-- Setting a valid cell preserves grid well-formedness. -/
lemma WF_setCell (sz : Nat) (g : Grid) (p : Position) (c : StoneColor)
    (hwf : WF ⟨sz, g⟩) (hv : (⟨sz, g⟩ : Board).isValidPosition p = true) :
    WF (⟨sz, setCell g p c⟩ : Board) := by
  obtain ⟨hx0, hx1, hy0, hy1⟩ := (isValidPosition_iff _ p).1 hv
  dsimp only at hx0 hx1 hy0 hy1
  have hglen : g.length = sz := hwf.1
  constructor
  · simp only [setCell, List.length_set]
    exact hglen
  · intro row hrow
    rcases List.mem_or_eq_of_mem_set hrow with h | h
    · exact hwf.2 row h
    · subst h
      rw [List.length_set]
      have hylen : p.y.toNat < g.length := by omega
      have hmem : g.getD p.y.toNat [] ∈ g := by
        rw [List.getD_eq_getElem?_getD, List.getElem?_eq_getElem hylen]
        exact List.getElem_mem hylen
      exact hwf.2 _ hmem

/-- The placed stone reads back, on a well-formed board. -/
lemma getStone_afterPlacement_self (b : Board) (p : Position) (c : StoneColor)
    (hwf : WF b) (hv : b.isValidPosition p = true) :
    (afterPlacement b p c).getStone p = c := by
  have hv' : (afterPlacement b p c).isValidPosition p = true := hv
  unfold getStone
  rw [if_pos hv']
  exact cellAt_setCell_self b.size b.grid p c hwf hv

/-- Placement changes no cell other than the placed one. -/
lemma getStone_afterPlacement_ne (b : Board) (p q : Position) (c : StoneColor)
    (hwf : WF b) (hv : b.isValidPosition p = true) (hne : q ≠ p) :
    (afterPlacement b p c).getStone q = b.getStone q := by
  unfold getStone
  have hv' : (afterPlacement b p c).isValidPosition q = b.isValidPosition q := rfl
  rw [hv']
  by_cases hq : b.isValidPosition q = true
  · rw [if_pos hq, if_pos hq]
    exact cellAt_setCell_ne b.size b.grid p q c hwf hv hq hne
  · rw [if_neg hq, if_neg hq]

/-- Placement preserves well-formedness. -/
lemma WF_afterPlacement (b : Board) (p : Position) (c : StoneColor)
    (hwf : WF b) (hv : b.isValidPosition p = true) :
    WF (afterPlacement b p c) :=
  WF_setCell b.size b.grid p c hwf hv

/-- The removal loop preserves grid well-formedness. -/
lemma WF_removeLoop (b : Board) :
    ∀ (ps : List Position) (g : Grid), WF ⟨b.size, g⟩ →
      WF (⟨b.size, removeLoop b ps g⟩ : Board) := by
  intro ps
  induction ps with
  | nil => intro g hwf; exact hwf
  | cons pos rest ih =>
    intro g hwf
    show WF ⟨b.size, removeLoop b rest _⟩
    by_cases hv : b.isValidPosition pos = true
    · rw [if_pos hv]
      exact ih _ (WF_setCell b.size g pos .empty hwf hv)
    · rw [if_neg hv]
      exact ih _ hwf

/-- The removal loop leaves unlisted valid cells alone. -/
lemma cellAt_removeLoop_not_mem (b : Board) :
    ∀ (ps : List Position) (g : Grid) (q : Position), WF ⟨b.size, g⟩ →
      b.isValidPosition q = true → q ∉ ps →
      cellAt (removeLoop b ps g) q = cellAt g q := by
  intro ps
  induction ps with
  | nil => intro g q _ _ _; rfl
  | cons pos rest ih =>
    intro g q hwf hq hmem
    have hq_ne : q ≠ pos := fun h => hmem (h ▸ List.mem_cons_self pos rest)
    have hrest : q ∉ rest := fun h => hmem (List.mem_cons_of_mem pos h)
    show cellAt (removeLoop b rest _) q = _
    by_cases hv : b.isValidPosition pos = true
    · rw [if_pos hv, ih _ q (WF_setCell b.size g pos .empty hwf hv) hq hrest]
      exact cellAt_setCell_ne b.size g pos q .empty hwf hv hq hq_ne
    · rw [if_neg hv]
      exact ih _ q hwf hq hrest

/-- Emptiness of a valid cell survives the removal loop (it only writes empty). -/
lemma cellAt_removeLoop_of_empty (b : Board) :
    ∀ (ps : List Position) (g : Grid) (q : Position), WF ⟨b.size, g⟩ →
      b.isValidPosition q = true → cellAt g q = .empty →
      cellAt (removeLoop b ps g) q = .empty := by
  intro ps
  induction ps with
  | nil => intro g q _ _ h; exact h
  | cons pos rest ih =>
    intro g q hwf hq hempty
    show cellAt (removeLoop b rest _) q = _
    by_cases hv : b.isValidPosition pos = true
    · rw [if_pos hv]
      refine ih _ q (WF_setCell b.size g pos .empty hwf hv) hq ?_
      by_cases hqp : q = pos
      · subst hqp
        exact cellAt_setCell_self b.size g q .empty hwf hq
      · rw [cellAt_setCell_ne b.size g pos q .empty hwf hv hq hqp]
        exact hempty
    · rw [if_neg hv]
      exact ih _ q hwf hq hempty

/-- Every listed valid cell is empty after the removal loop. -/
lemma cellAt_removeLoop_mem (b : Board) :
    ∀ (ps : List Position) (g : Grid) (q : Position), WF ⟨b.size, g⟩ →
      b.isValidPosition q = true → q ∈ ps →
      cellAt (removeLoop b ps g) q = .empty := by
  intro ps
  induction ps with
  | nil => intro g q _ _ h; exact absurd h (List.not_mem_nil q)
  | cons pos rest ih =>
    intro g q hwf hq hmem
    show cellAt (removeLoop b rest _) q = _
    by_cases hqp : q = pos
    · subst hqp
      rw [if_pos hq]
      exact cellAt_removeLoop_of_empty b rest _ q
        (WF_setCell b.size g q .empty hwf hq) hq
        (cellAt_setCell_self b.size g q .empty hwf hq)
    · have hrest : q ∈ rest := by
        rcases List.mem_cons.1 hmem with h | h
        · exact absurd h hqp
        · exact h
      by_cases hv : b.isValidPosition pos = true
      · rw [if_pos hv]
        exact ih _ q (WF_setCell b.size g pos .empty hwf hv) hq hrest
      · rw [if_neg hv]
        exact ih _ q hwf hq hrest

/-- removeStones preserves well-formedness. -/
lemma WF_removeStones (b : Board) (ps : List Position) (hwf : WF b) :
    WF (b.removeStones ps) :=
  WF_removeLoop b ps b.grid hwf

/-- removeStones empties exactly the listed valid cells. -/
lemma getStone_removeStones_mem (b : Board) (ps : List Position) (q : Position)
    (hwf : WF b) (hq : q ∈ ps) :
    (b.removeStones ps).getStone q = .empty := by
  unfold getStone
  have hv' : (b.removeStones ps).isValidPosition q = b.isValidPosition q := rfl
  rw [hv']
  by_cases hvq : b.isValidPosition q = true
  · rw [if_pos hvq]
    exact cellAt_removeLoop_mem b ps b.grid q hwf hvq hq
  · rw [if_neg hvq]

/-- removeStones leaves every unlisted cell unchanged. -/
lemma getStone_removeStones_not_mem (b : Board) (ps : List Position) (q : Position)
    (hwf : WF b) (hq : q ∉ ps) :
    (b.removeStones ps).getStone q = b.getStone q := by
  unfold getStone
  have hv' : (b.removeStones ps).isValidPosition q = b.isValidPosition q := rfl
  rw [hv']
  by_cases hvq : b.isValidPosition q = true
  · rw [if_pos hvq, if_pos hvq]
    exact cellAt_removeLoop_not_mem b ps b.grid q hwf hvq hq
  · rw [if_neg hvq, if_neg hvq]

/-- A cell after removeStones either kept its stone or is empty. -/
lemma getStone_removeStones_cases (b : Board) (ps : List Position) (q : Position)
    (hwf : WF b) :
    (b.removeStones ps).getStone q = b.getStone q ∨
      (q ∈ ps ∧ (b.removeStones ps).getStone q = .empty) := by
  by_cases hq : q ∈ ps
  · exact Or.inr ⟨hq, getStone_removeStones_mem b ps q hwf hq⟩
  · exact Or.inl (getStone_removeStones_not_mem b ps q hwf hq)

/-- Neighbours are valid positions. -/
lemma mem_getNeighbors_valid (b : Board) (p n : Position)
    (h : n ∈ b.getNeighbors p) : b.isValidPosition n = true :=
  (List.mem_filter.1 h).2

/-- Validity depends only on the board size. -/
lemma isValidPosition_congr (b b' : Board) (p : Position) (h : b.size = b'.size) :
    b.isValidPosition p = b'.isValidPosition p := by
  unfold isValidPosition
  rw [h]

/-- The neighbour list depends only on the board size. -/
lemma getNeighbors_congr (b b' : Board) (p : Position) (h : b.size = b'.size) :
    b.getNeighbors p = b'.getNeighbors p := by
  unfold getNeighbors
  congr 1
  funext n
  rw [isValidPosition_congr b b' n h]

/-- There are at most four neighbours. -/
lemma length_getNeighbors_le (b : Board) (p : Position) :
    (b.getNeighbors p).length ≤ 4 :=
  le_trans (List.length_filter_le _ _) (by simp)

/-- Orthogonal adjacency is symmetric on valid positions. -/
lemma getNeighbors_symm (b : Board) (p n : Position)
    (hp : b.isValidPosition p = true) (hn : n ∈ b.getNeighbors p) :
    p ∈ b.getNeighbors n := by
  unfold getNeighbors at hn ⊢
  rcases List.mem_filter.1 hn with ⟨hmem, hvn⟩
  apply List.mem_filter.2
  refine ⟨?_, hp⟩
  simp only [List.mem_cons, List.mem_singleton, List.not_mem_nil, or_false] at hmem ⊢
  obtain ⟨px, py⟩ := p
  rcases hmem with h | h | h | h <;> subst h <;> dsimp only <;>
    simp only [Position.mk.injEq, true_and, and_true] <;> omega

/-- Membership in the valid-cell set is validity. -/
lemma mem_validCells (b : Board) (p : Position) :
    p ∈ b.validCells ↔ b.isValidPosition p = true := by
  unfold validCells
  rw [isValidPosition_iff]
  simp only [Finset.mem_image, Finset.mem_product, Finset.mem_range]
  constructor
  · rintro ⟨⟨i, j⟩, ⟨hi, hj⟩, rfl⟩
    simp only []
    omega
  · intro ⟨hx0, hx1, hy0, hy1⟩
    refine ⟨⟨p.x.toNat, p.y.toNat⟩, ⟨by omega, by omega⟩, ?_⟩
    cases p
    simp only [Position.mk.injEq]
    simp only at hx0 hy0
    omega

/-- The valid-cell set has at most size * size elements. -/
lemma card_validCells_le (b : Board) : b.validCells.card ≤ b.size * b.size := by
  unfold validCells
  calc ((Finset.range b.size ×ˢ Finset.range b.size).image
        (fun q : Nat × Nat => (⟨(q.1 : Int), (q.2 : Int)⟩ : Position))).card
      ≤ (Finset.range b.size ×ˢ Finset.range b.size).card := Finset.card_image_le
    _ = b.size * b.size := by rw [Finset.card_product, Finset.card_range]

/-- hasLiberties holds exactly when some group member has an empty neighbour. -/
lemma hasLiberties_iff (b : Board) (S : List Position) :
    b.hasLiberties S = true ↔
      ∃ q ∈ S, ∃ e ∈ b.getNeighbors q, b.getStone e = .empty := by
  unfold hasLiberties libertiesOf
  rw [Bool.not_eq_true']
  rw [← Bool.not_eq_true]
  rw [List.isEmpty_iff]
  constructor
  · intro h
    rcases List.exists_mem_of_ne_nil _ h with ⟨e, he⟩
    rcases List.mem_flatMap.1 he with ⟨q, hq, he2⟩
    rcases List.mem_filter.1 he2 with ⟨he3, he4⟩
    exact ⟨q, hq, e, he3, by simpa using he4⟩
  · intro ⟨q, hq, e, he, hemp⟩
    intro hnil
    have : e ∈ (S.flatMap fun pos =>
        (b.getNeighbors pos).filter fun n => decide (b.getStone n = .empty)) :=
      List.mem_flatMap.2 ⟨q, hq, List.mem_filter.2 ⟨he, by simpa using hemp⟩⟩
    rw [hnil] at this
    exact List.not_mem_nil e this

/-- Colour is constant along connectivity. -/
lemma conn_col (b : Board) (col : StoneColor) (x z : Position)
    (h : Conn b col x z) (hx : b.getStone x = col) : b.getStone z = col := by
  induction h with
  | refl => exact hx
  | tail _ hadj _ => exact hadj.2.1

/-- Same-colour adjacency is symmetric for non-empty colours. -/
lemma adj_symm (b : Board) (col : StoneColor) (hcol : col ≠ .empty) (u v : Position)
    (h : Adj b col u v) : Adj b col v u := by
  obtain ⟨hu, hv, hmem⟩ := h
  refine ⟨hv, hu, ?_⟩
  apply getNeighbors_symm b u v ?_ hmem
  exact isValid_of_getStone_ne_empty b u (by rw [hu]; exact hcol)

/-- Connectivity is symmetric for non-empty colours. -/
lemma conn_symm (b : Board) (col : StoneColor) (hcol : col ≠ .empty) (u v : Position)
    (h : Conn b col u v) : Conn b col v u := by
  induction h with
  | refl => exact Relation.ReflTransGen.refl
  | tail _ hadj ih =>
    exact Relation.ReflTransGen.trans
      (Relation.ReflTransGen.single (adj_symm b col hcol _ _ hadj)) ih

/-- Reachability whose endpoint has the colour upgrades to connectivity. -/
lemma conn_of_reach (b : Board) (col : StoneColor) (x z : Position)
    (h : Reach b col x z) : b.getStone z = col → Conn b col x z := by
  induction h with
  | refl => intro _; exact Relation.ReflTransGen.refl
  | tail _ htouch ih =>
    intro hz
    exact Relation.ReflTransGen.tail (ih htouch.1) ⟨htouch.1, hz, htouch.2⟩

/-- Soundness invariant of the flood fill: everything on the stack is reachable
from the start, and everything in the group is reachable and coloured. -/
lemma getGroupLoop_sound (b : Board) (col : StoneColor) (x : Position) :
    ∀ (fuel : Nat) (stack visited group : List Position),
      (∀ s ∈ stack, Reach b col x s) →
      (∀ g ∈ group, Reach b col x g ∧ b.getStone g = col) →
      ∀ z ∈ getGroupLoop b col fuel stack visited group,
        Reach b col x z ∧ b.getStone z = col := by
  intro fuel
  induction fuel with
  | zero => intro stack visited group _ hg z hz; exact hg z hz
  | succ fuel ih =>
    intro stack visited group hs hg z hz
    cases stack with
    | nil => exact hg z hz
    | cons current rest =>
      rw [getGroupLoop] at hz
      by_cases hvis : current ∈ visited
      · rw [if_pos hvis] at hz
        exact ih rest visited group (fun s hsm => hs s (List.mem_cons_of_mem _ hsm)) hg z hz
      · rw [if_neg hvis] at hz
        by_cases hcol : b.getStone current = col
        · rw [if_pos hcol] at hz
          refine ih _ _ _ ?_ ?_ z hz
          · intro s hsm
            rcases List.mem_append.1 hsm with h1 | h1
            · have h2 := List.mem_reverse.1 h1
              have h3 := (List.mem_filter.1 h2).1
              exact Relation.ReflTransGen.tail (hs current (List.mem_cons_self _ _))
                ⟨hcol, h3⟩
            · exact hs s (List.mem_cons_of_mem _ h1)
          · intro g hgm
            rcases List.mem_append.1 hgm with h1 | h1
            · exact hg g h1
            · rw [List.mem_singleton] at h1
              subst h1
              exact ⟨hs _ (List.mem_cons_self _ _), hcol⟩
        · rw [if_neg hcol] at hz
          exact ih _ _ _ (fun s hsm => hs s (List.mem_cons_of_mem _ hsm)) hg z hz

/-- Completeness of the flood fill, by strong induction on the fuel: with enough
fuel, every cell connected to a scheduled coloured cell ends up in the returned
group.  The closure hypothesis states that every visited coloured cell is
already in the group with all its coloured neighbours scheduled. -/
lemma getGroupLoop_complete (b : Board) (col : StoneColor) :
    ∀ (fuel : Nat) (stack visited group : List Position),
      5 * (b.validCells \ visited.toFinset).card + stack.length < fuel →
      (∀ s ∈ stack, b.isValidPosition s = true) →
      (∀ v ∈ visited, b.getStone v = col → v ∈ group ∧
        ∀ nb ∈ b.getNeighbors v, b.getStone nb = col → nb ∈ visited ∨ nb ∈ stack) →
      ∀ y z, b.getStone y = col → Conn b col y z → (y ∈ stack ∨ y ∈ visited) →
        z ∈ getGroupLoop b col fuel stack visited group := by
  intro fuel
  induction fuel using Nat.strong_induction_on with
  | _ fuel ih =>
    intro stack visited group hfuel hstackv hclosure y z hy hconn hymem
    cases fuel with
    | zero => omega
    | succ fuel =>
      cases stack with
      | nil =>
        have key : ∀ w, Conn b col y w → w ∈ visited := by
          intro w hw
          induction hw with
          | refl =>
            rcases hymem with h | h
            · exact absurd h (List.not_mem_nil y)
            · exact h
          | tail _ hadj ih2 =>
            rcases (hclosure _ ih2 hadj.1).2 _ hadj.2.2 hadj.2.1 with h | h
            · exact h
            · exact absurd h (List.not_mem_nil _)
        rw [getGroupLoop]
        exact (hclosure z (key z hconn) (conn_col b col y z hconn hy)).1
      | cons current rest =>
        rw [getGroupLoop]
        have hcur_valid : b.isValidPosition current = true :=
          hstackv current (List.mem_cons_self _ _)
        have hconslen : (current :: rest).length = rest.length + 1 := rfl
        by_cases hvis : current ∈ visited
        · rw [if_pos hvis]
          refine ih fuel (by omega) rest visited group (by omega) ?_ ?_ y z hy hconn ?_
          · exact fun s hsm => hstackv s (List.mem_cons_of_mem _ hsm)
          · intro v hv hvcol
            refine ⟨(hclosure v hv hvcol).1, ?_⟩
            intro nb hnb hnbcol
            rcases (hclosure v hv hvcol).2 nb hnb hnbcol with h | h
            · exact Or.inl h
            · rcases List.mem_cons.1 h with h2 | h2
              · refine Or.inl ?_
                rw [h2]
                exact hvis
              · exact Or.inr h2
          · rcases hymem with h | h
            · rcases List.mem_cons.1 h with h2 | h2
              · refine Or.inr ?_
                rw [h2]
                exact hvis
              · exact Or.inl h2
            · exact Or.inr h
        · rw [if_neg hvis]
          have hcard : current ∈ b.validCells \ visited.toFinset := by
            rw [Finset.mem_sdiff, mem_validCells]
            exact ⟨hcur_valid, fun h => hvis (List.mem_toFinset.1 h)⟩
          have hcardpos : 1 ≤ (b.validCells \ visited.toFinset).card :=
            Finset.card_pos.2 ⟨current, hcard⟩
          have hcard_new : (b.validCells \ (current :: visited).toFinset).card =
              (b.validCells \ visited.toFinset).card - 1 := by
            rw [List.toFinset_cons, Finset.sdiff_insert]
            exact Finset.card_erase_of_mem hcard
          by_cases hcol : b.getStone current = col
          · rw [if_pos hcol]
            have hlenf : (((b.getNeighbors current).filter
                (fun n => n ∉ current :: visited)).reverse).length ≤ 4 := by
              rw [List.length_reverse]
              exact le_trans (List.length_filter_le _ _) (length_getNeighbors_le b current)
            have hlenapp : ((((b.getNeighbors current).filter
                (fun n => n ∉ current :: visited)).reverse) ++ rest).length =
                (((b.getNeighbors current).filter
                  (fun n => n ∉ current :: visited)).reverse).length + rest.length :=
              List.length_append _ _
            refine ih fuel (by omega) _ (current :: visited) (group ++ [current])
              (by omega) ?_ ?_ y z hy hconn ?_
            · intro s hsm
              rcases List.mem_append.1 hsm with h1 | h1
              · exact mem_getNeighbors_valid b current s
                  (List.mem_filter.1 (List.mem_reverse.1 h1)).1
              · exact hstackv s (List.mem_cons_of_mem _ h1)
            · intro v hv hvcol
              rcases List.mem_cons.1 hv with h2 | h2
              · subst h2
                constructor
                · exact List.mem_append.2 (Or.inr (List.mem_singleton.2 rfl))
                · intro nb hnb hnbcol
                  by_cases hnbvis : nb ∈ v :: visited
                  · exact Or.inl hnbvis
                  · refine Or.inr (List.mem_append.2 (Or.inl ?_))
                    rw [List.mem_reverse]
                    exact List.mem_filter.2 ⟨hnb, by simpa using hnbvis⟩
              · have hcl := hclosure v h2 hvcol
                refine ⟨List.mem_append.2 (Or.inl hcl.1), ?_⟩
                intro nb hnb hnbcol
                rcases hcl.2 nb hnb hnbcol with h3 | h3
                · exact Or.inl (List.mem_cons_of_mem _ h3)
                · rcases List.mem_cons.1 h3 with h4 | h4
                  · refine Or.inl ?_
                    rw [h4]
                    exact List.mem_cons_self _ _
                  · exact Or.inr (List.mem_append.2 (Or.inr h4))
            · rcases hymem with h | h
              · rcases List.mem_cons.1 h with h2 | h2
                · refine Or.inr ?_
                  rw [h2]
                  exact List.mem_cons_self _ _
                · exact Or.inl (List.mem_append.2 (Or.inr h2))
              · exact Or.inr (List.mem_cons_of_mem _ h)
          · rw [if_neg hcol]
            refine ih fuel (by omega) rest (current :: visited) group (by omega)
              ?_ ?_ y z hy hconn ?_
            · exact fun s hsm => hstackv s (List.mem_cons_of_mem _ hsm)
            · intro v hv hvcol
              rcases List.mem_cons.1 hv with h2 | h2
              · subst h2
                exact absurd hvcol hcol
              · have hcl := hclosure v h2 hvcol
                refine ⟨hcl.1, ?_⟩
                intro nb hnb hnbcol
                rcases hcl.2 nb hnb hnbcol with h3 | h3
                · exact Or.inl (List.mem_cons_of_mem _ h3)
                · rcases List.mem_cons.1 h3 with h4 | h4
                  · refine Or.inl ?_
                    rw [h4]
                    exact List.mem_cons_self _ _
                  · exact Or.inr h4
            · rcases hymem with h | h
              · rcases List.mem_cons.1 h with h2 | h2
                · subst h2
                  exact absurd hy hcol
                · exact Or.inl h2
              · exact Or.inr (List.mem_cons_of_mem _ h)

/-- The flood-fill group is exactly the connected same-colour component. -/
lemma mem_getGroup_iff (b : Board) (x z : Position) (hx : b.getStone x ≠ .empty) :
    z ∈ b.getGroup x ↔ Conn b (b.getStone x) x z := by
  unfold getGroup
  rw [if_neg hx]
  constructor
  · intro hz
    have hs := getGroupLoop_sound b (b.getStone x) x (groupFuel b) [x] [] []
      (fun s hsm => by
        rw [List.mem_singleton] at hsm
        subst hsm
        exact Relation.ReflTransGen.refl)
      (fun g hgm => absurd hgm (List.not_mem_nil g)) z hz
    exact conn_of_reach b _ x z hs.1 hs.2
  · intro hconn
    refine getGroupLoop_complete b (b.getStone x) (groupFuel b) [x] [] [] ?_ ?_ ?_
      x z rfl hconn (Or.inl (List.mem_singleton.2 rfl))
    · have hcard := card_validCells_le b
      have : ([] : List Position).toFinset = (∅ : Finset Position) := rfl
      rw [this, Finset.sdiff_empty]
      unfold groupFuel
      simp only [List.length_singleton]
      rw [Nat.mul_assoc]
      omega
    · intro s hsm
      rw [List.mem_singleton] at hsm
      subst hsm
      exact isValid_of_getStone_ne_empty b s hx
    · intro v hv
      exact absurd hv (List.not_mem_nil v)

/-- Group members carry the colour of the start cell. -/
lemma getGroup_col (b : Board) (x z : Position) (hz : z ∈ b.getGroup x) :
    b.getStone z = b.getStone x := by
  by_cases hx : b.getStone x = .empty
  · unfold getGroup at hz
    rw [if_pos hx] at hz
    exact absurd hz (List.not_mem_nil z)
  · exact conn_col b _ x z ((mem_getGroup_iff b x z hx).1 hz) rfl

/-- A non-empty cell belongs to its own group. -/
lemma self_mem_getGroup (b : Board) (x : Position) (hx : b.getStone x ≠ .empty) :
    x ∈ b.getGroup x :=
  (mem_getGroup_iff b x x hx).2 Relation.ReflTransGen.refl

/-- The opponent colour is never empty. -/
lemma opponentOf_ne_empty (c : StoneColor) : opponentOf c ≠ .empty := by
  unfold opponentOf
  by_cases h : c = .black <;> simp [h]

/-- The opponent colour differs from a non-empty colour. -/
lemma opponentOf_ne_self (c : StoneColor) (hc : c ≠ .empty) : opponentOf c ≠ c := by
  unfold opponentOf
  cases c <;> simp at hc ⊢

/-- A member of a group determines the same group. -/
lemma getGroup_eq_of_mem (b : Board) (m n : Position) (hm : b.getStone m ≠ .empty)
    (hn : n ∈ b.getGroup m) : ∀ z, z ∈ b.getGroup n ↔ z ∈ b.getGroup m := by
  intro z
  have hcoln : b.getStone n = b.getStone m := getGroup_col b m n hn
  have hnne : b.getStone n ≠ .empty := by
    rw [hcoln]
    exact hm
  have hconn_mn : Conn b (b.getStone m) m n := (mem_getGroup_iff b m n hm).1 hn
  rw [mem_getGroup_iff b n z hnne, mem_getGroup_iff b m z hm, hcoln]
  constructor
  · intro h
    exact Relation.ReflTransGen.trans hconn_mn h
  · intro h
    exact Relation.ReflTransGen.trans (conn_symm b _ (by rw [← hcoln]; exact hnne) m n hconn_mn) h

/-- Groups that do not contain each other's base are disjoint. -/
lemma not_mem_getGroup_of (b : Board) (m n w : Position) (hm : b.getStone m ≠ .empty)
    (hn : b.getStone n ≠ .empty) (hnm : n ∉ b.getGroup m)
    (hw : w ∈ b.getGroup n) : w ∉ b.getGroup m := by
  intro hwm
  have h2 := (getGroup_eq_of_mem b n w hn hw n).2 (self_mem_getGroup b n hn)
  exact hnm ((getGroup_eq_of_mem b m w hm hwm n).1 h2)

/-- Connectivity on a removal result lifts back to the original board. -/
lemma conn_of_conn_removeStones (b : Board) (ps : List Position) (col : StoneColor)
    (hcol : col ≠ .empty) (hwf : WF b) (n z : Position)
    (hz : Conn (b.removeStones ps) col n z) : Conn b col n z := by
  have hstone : ∀ w : Position, (b.removeStones ps).getStone w = col →
      b.getStone w = col := by
    intro w hw
    rcases getStone_removeStones_cases b ps w hwf with h | h
    · rw [← h]
      exact hw
    · rw [h.2] at hw
      exact absurd hw.symm hcol
  induction hz with
  | refl => exact Relation.ReflTransGen.refl
  | tail _ hadj ih =>
    refine Relation.ReflTransGen.tail ih ⟨hstone _ hadj.1, hstone _ hadj.2.1, ?_⟩
    rw [getNeighbors_congr b (b.removeStones ps) _ rfl]
    exact hadj.2.2

/-- Removing a disjoint group does not sever connectivity from `n`. -/
lemma conn_removeStones_of_conn (b : Board) (m n : Position)
    (hwf : WF b) (hm : b.getStone m ≠ .empty) (hn : b.getStone n ≠ .empty)
    (hnm : n ∉ b.getGroup m) (z : Position)
    (hz : Conn b (b.getStone n) n z) :
    Conn (b.removeStones (b.getGroup m)) (b.getStone n) n z := by
  induction hz with
  | refl => exact Relation.ReflTransGen.refl
  | tail hc hadj ih =>
    refine Relation.ReflTransGen.tail ih ⟨?_, ?_, ?_⟩
    · have hwmem : _ ∈ b.getGroup n := (mem_getGroup_iff b n _ hn).2 hc
      rw [getStone_removeStones_not_mem b _ _ hwf
        (not_mem_getGroup_of b m n _ hm hn hnm hwmem)]
      exact hadj.1
    · have hzmem : _ ∈ b.getGroup n := (mem_getGroup_iff b n _ hn).2
        (Relation.ReflTransGen.tail hc hadj)
      rw [getStone_removeStones_not_mem b _ _ hwf
        (not_mem_getGroup_of b m n _ hm hn hnm hzmem)]
      exact hadj.2.1
    · rw [getNeighbors_congr (b.removeStones (b.getGroup m)) b _ rfl]
      exact hadj.2.2

/-- Removing a disjoint group leaves the tracked group's membership unchanged. -/
lemma getGroup_removeStones_disjoint (b : Board) (m n : Position)
    (hwf : WF b) (hm : b.getStone m ≠ .empty) (hn : b.getStone n ≠ .empty)
    (hnm : n ∉ b.getGroup m) :
    ∀ z, z ∈ (b.removeStones (b.getGroup m)).getGroup n ↔ z ∈ b.getGroup n := by
  intro z
  have hrs_n : (b.removeStones (b.getGroup m)).getStone n = b.getStone n :=
    getStone_removeStones_not_mem b _ _ hwf hnm
  rw [mem_getGroup_iff (b.removeStones (b.getGroup m)) n z (by rw [hrs_n]; exact hn),
    mem_getGroup_iff b n z hn, hrs_n]
  constructor
  · exact fun h => conn_of_conn_removeStones b _ _ hn hwf n z h
  · exact fun h => conn_removeStones_of_conn b m n hwf hm hn hnm z h

/-- Through the capture loop, a cell either keeps its stone or held the opponent
colour and is now empty; size and well-formedness are preserved. -/
lemma resolveCaptures_changes (opp : StoneColor) (ns : List Position) :
    ∀ bd : Board, WF bd →
      (∀ q : Position, (resolveCaptures opp bd ns).getStone q = bd.getStone q ∨
        (bd.getStone q = opp ∧ (resolveCaptures opp bd ns).getStone q = .empty)) ∧
      WF (resolveCaptures opp bd ns) ∧ (resolveCaptures opp bd ns).size = bd.size := by
  induction ns with
  | nil =>
    intro bd hwf
    exact ⟨fun q => Or.inl rfl, hwf, rfl⟩
  | cons n rest ih =>
    intro bd hwf
    have hunf : resolveCaptures opp bd (n :: rest) =
        resolveCaptures opp
          (if bd.getStone n = opp then
            (if bd.hasLiberties (bd.getGroup n) then bd
             else bd.removeStones (bd.getGroup n))
          else bd) rest := rfl
    rw [hunf]
    by_cases h1 : bd.getStone n = opp
    · by_cases h2 : bd.hasLiberties (bd.getGroup n) = true
      · rw [if_pos h1, if_pos h2]
        exact ih bd hwf
      · rw [if_pos h1, if_neg (by simpa using h2)]
        have hwf2 := WF_removeStones bd (bd.getGroup n) hwf
        obtain ⟨hch, hwf3, hsz⟩ := ih (bd.removeStones (bd.getGroup n)) hwf2
        refine ⟨?_, hwf3, hsz⟩
        intro q
        rcases hch q with h | h
        · rcases getStone_removeStones_cases bd (bd.getGroup n) q hwf with h3 | h3
          · left
            rw [h, h3]
          · right
            refine ⟨?_, by rw [h, h3.2]⟩
            rw [getGroup_col bd n q h3.1]
            exact h1
        · rcases getStone_removeStones_cases bd (bd.getGroup n) q hwf with h3 | h3
          · right
            refine ⟨?_, h.2⟩
            rw [← h3]
            exact h.1
          · right
            refine ⟨?_, h.2⟩
            rw [getGroup_col bd n q h3.1]
            exact h1
    · rw [if_neg h1]
      exact ih bd hwf

/-- One capture-loop step preserves the capture invariant; a tracked group that
is already empty stays empty; and processing the tracked neighbour itself
leaves the whole tracked group empty. -/
lemma captureStep_inv (p : Position) (c : StoneColor) (n m : Position)
    (G0 : List Position) (sz : Nat) (bd : Board) (hc : c ≠ .empty)
    (hinv : CaptureInv p c n G0 sz bd) :
    CaptureInv p c n G0 sz
        (if bd.getStone m = opponentOf c then
          (if bd.hasLiberties (bd.getGroup m) then bd
           else bd.removeStones (bd.getGroup m))
         else bd) ∧
      ((∀ z ∈ G0, bd.getStone z = .empty) →
        ∀ z ∈ G0,
          (if bd.getStone m = opponentOf c then
            (if bd.hasLiberties (bd.getGroup m) then bd
             else bd.removeStones (bd.getGroup m))
           else bd).getStone z = .empty) ∧
      (m = n →
        ∀ z ∈ G0,
          (if bd.getStone m = opponentOf c then
            (if bd.hasLiberties (bd.getGroup m) then bd
             else bd.removeStones (bd.getGroup m))
           else bd).getStone z = .empty) := by
  obtain ⟨hsz, hwf, hp, hd⟩ := hinv
  by_cases h1 : bd.getStone m = opponentOf c
  · by_cases h2 : bd.hasLiberties (bd.getGroup m) = true
    · rw [if_pos h1, if_pos h2]
      refine ⟨⟨hsz, hwf, hp, hd⟩, fun h => h, ?_⟩
      intro hmn
      subst hmn
      rcases hd with h | h
      · exact h
      · rw [h.2.2] at h2
        simp at h2
    · rw [if_pos h1, if_neg (by simpa using h2)]
      have hm_ne : bd.getStone m ≠ .empty := by
        rw [h1]
        exact opponentOf_ne_empty c
      have hwf2 := WF_removeStones bd (bd.getGroup m) hwf
      have hp_not : p ∉ bd.getGroup m := by
        intro hpm
        have hcol := getGroup_col bd m p hpm
        rw [hp, h1] at hcol
        exact opponentOf_ne_self c hc hcol.symm
      have hp2 : (bd.removeStones (bd.getGroup m)).getStone p = c := by
        rw [getStone_removeStones_not_mem bd _ p hwf hp_not]
        exact hp
      have hsz2 : (bd.removeStones (bd.getGroup m)).size = sz := hsz
      have hkeep : (∀ z ∈ G0, bd.getStone z = .empty) →
          ∀ z ∈ G0, (bd.removeStones (bd.getGroup m)).getStone z = .empty := by
        intro h z hz
        rcases getStone_removeStones_cases bd (bd.getGroup m) z hwf with h3 | h3
        · rw [h3]
          exact h z hz
        · exact h3.2
      rcases hd with hd1 | hd2
      · exact ⟨⟨hsz2, hwf2, hp2, Or.inl (hkeep hd1)⟩, hkeep, fun _ => hkeep hd1⟩
      · obtain ⟨hno, hset, hlib⟩ := hd2
        have hn_ne : bd.getStone n ≠ .empty := by
          rw [hno]
          exact opponentOf_ne_empty c
        by_cases hng : n ∈ bd.getGroup m
        · have hall : ∀ z ∈ G0, (bd.removeStones (bd.getGroup m)).getStone z = .empty := by
            intro z hz
            exact getStone_removeStones_mem bd _ z hwf
              ((getGroup_eq_of_mem bd m n hm_ne hng z).1 ((hset z).2 hz))
          exact ⟨⟨hsz2, hwf2, hp2, Or.inl hall⟩, hkeep, fun _ => hall⟩
        · have hrs_n : (bd.removeStones (bd.getGroup m)).getStone n = bd.getStone n :=
            getStone_removeStones_not_mem bd _ n hwf hng
          have hsets := getGroup_removeStones_disjoint bd m n hwf hm_ne hn_ne hng
          have hlib2 : (bd.removeStones (bd.getGroup m)).hasLiberties
              ((bd.removeStones (bd.getGroup m)).getGroup n) = false := by
            cases hcase : (bd.removeStones (bd.getGroup m)).hasLiberties
              ((bd.removeStones (bd.getGroup m)).getGroup n) with
            | false => rfl
            | true =>
              exfalso
              obtain ⟨q, hq, e, he, hemp⟩ := (hasLiberties_iff _ _).1 hcase
              have hq_bd : q ∈ bd.getGroup n := (hsets q).1 hq
              have he_bd : e ∈ bd.getNeighbors q := by
                rw [← getNeighbors_congr bd (bd.removeStones (bd.getGroup m)) q rfl] at he
                exact he
              rcases getStone_removeStones_cases bd (bd.getGroup m) e hwf with h3 | h3
              · rw [h3] at hemp
                have h4 := (hasLiberties_iff bd (bd.getGroup n)).2 ⟨q, hq_bd, e, he_bd, hemp⟩
                rw [hlib] at h4
                simp at h4
              · have he_col : bd.getStone e = bd.getStone n := by
                  rw [getGroup_col bd m e h3.1, hno, h1]
                have hq_col : bd.getStone q = bd.getStone n := getGroup_col bd n q hq_bd
                have he_grp : e ∈ bd.getGroup n := by
                  rw [mem_getGroup_iff bd n e hn_ne]
                  exact Relation.ReflTransGen.tail
                    ((mem_getGroup_iff bd n q hn_ne).1 hq_bd) ⟨hq_col, he_col, he_bd⟩
                exact not_mem_getGroup_of bd m n e hm_ne hn_ne hng he_grp h3.1
          refine ⟨⟨hsz2, hwf2, hp2, Or.inr ⟨by rw [hrs_n]; exact hno,
            fun z => (hsets z).trans (hset z), hlib2⟩⟩, hkeep, ?_⟩
          intro hmn
          subst hmn
          exact absurd (self_mem_getGroup bd m (by rw [h1]; exact opponentOf_ne_empty c)) hng
  · rw [if_neg h1]
    refine ⟨⟨hsz, hwf, hp, hd⟩, fun h => h, ?_⟩
    intro hmn
    subst hmn
    rcases hd with h | h
    · exact h
    · exact absurd h.1 h1

/-- Walking the capture loop: the invariant is preserved, and once the tracked
neighbour has been processed (or the tracked group was already gone) the tracked
group is wholly empty at the end. -/
lemma resolveCaptures_walk (p : Position) (c : StoneColor) (n : Position)
    (G0 : List Position) (sz : Nat) (hc : c ≠ .empty) (ns : List Position) :
    ∀ bd : Board, CaptureInv p c n G0 sz bd →
      CaptureInv p c n G0 sz (resolveCaptures (opponentOf c) bd ns) ∧
        ((n ∈ ns ∨ ∀ z ∈ G0, bd.getStone z = .empty) →
          ∀ z ∈ G0, (resolveCaptures (opponentOf c) bd ns).getStone z = .empty) := by
  induction ns with
  | nil =>
    intro bd hinv
    refine ⟨hinv, ?_⟩
    intro h
    rcases h with h | h
    · exact absurd h (List.not_mem_nil n)
    · exact h
  | cons m rest ih =>
    intro bd hinv
    have hunf : resolveCaptures (opponentOf c) bd (m :: rest) =
        resolveCaptures (opponentOf c)
          (if bd.getStone m = opponentOf c then
            (if bd.hasLiberties (bd.getGroup m) then bd
             else bd.removeStones (bd.getGroup m))
          else bd) rest := rfl
    rw [hunf]
    obtain ⟨hinv2, hkeep, hproc⟩ := captureStep_inv p c n m G0 sz bd hc hinv
    obtain ⟨hinv3, hfin⟩ := ih _ hinv2
    refine ⟨hinv3, ?_⟩
    intro h
    rcases h with h | h
    · rcases List.mem_cons.1 h with h2 | h2
      · exact hfin (Or.inr (hproc h2.symm))
      · exact hfin (Or.inl h2)
    · exact hfin (Or.inr (hkeep h))

/-- placeStone returns the post-capture board whenever the placed group has a
liberty after capture resolution. -/
lemma placeStone_ok_of (b : Board) (p : Position) (c : StoneColor)
    (hv : b.isValidPosition p = true) (he : b.getStone p = .empty) (hc : c ≠ .empty)
    (hs : (boardAfterCapturesOf b p c).hasLiberties
        ((boardAfterCapturesOf b p c).getGroup p) = true) :
    b.placeStone p c = .ok (boardAfterCapturesOf b p c) := by
  simp [placeStone, hv, he, hc, hs]

/-- A successful placement pins down the guards and the returned board. -/
lemma placeStone_ok_inversion (b : Board) (p : Position) (c : StoneColor) (b2 : Board)
    (hok : b.placeStone p c = .ok b2) :
    b.isValidPosition p = true ∧ b.getStone p = .empty ∧ c ≠ .empty ∧
      b2 = boardAfterCapturesOf b p c := by
  unfold placeStone at hok
  by_cases h1 : b.isValidPosition p = false
  · rw [if_pos h1] at hok
    exact absurd hok (by simp)
  · rw [if_neg h1] at hok
    by_cases h2 : b.getStone p ≠ .empty
    · rw [if_pos h2] at hok
      exact absurd hok (by simp)
    · rw [if_neg h2] at hok
      by_cases h3 : c = .empty
      · rw [if_pos h3] at hok
        exact absurd hok (by simp)
      · rw [if_neg h3] at hok
        by_cases h4 : (boardAfterCapturesOf b p c).hasLiberties
            ((boardAfterCapturesOf b p c).getGroup p) = false
        · rw [if_pos h4] at hok
          exact absurd hok (by simp)
        · rw [if_neg h4] at hok
          have hv : b.isValidPosition p = true := by
            revert h1
            cases b.isValidPosition p <;> simp
          refine ⟨hv, not_not.1 h2, h3, ?_⟩
          injection hok with h5
          exact h5.symm

end Board

/-- Reads below the original store length are unaffected by allocating a fresh
grid object and writing through the fresh reference. -/
lemma readRef_alloc_write (st : Store) (g g' : Grid) (r : Nat) (h : r < st.length) :
    readRef (writeRef (st ++ [g]) st.length g') r = readRef st r := by
  unfold readRef writeRef
  rw [List.getD_eq_getElem?_getD, List.getD_eq_getElem?_getD]
  rw [List.getElem?_set_ne (by omega), List.getElem?_append, if_pos h]

/-- The store after `removeStonesS` is one allocation longer. -/
lemma removeStonesS_length (st : Store) (b : StoreBoard) (ps : List Position) :
    (removeStonesS st b ps).1.length = st.length + 1 := by
  simp [removeStonesS, allocRef, writeRef]

/-- `removeStonesS` never writes an existing reference. -/
lemma readRef_removeStonesS (st : Store) (b : StoreBoard) (ps : List Position)
    (r : Nat) (h : r < st.length) :
    readRef (removeStonesS st b ps).1 r = readRef st r :=
  readRef_alloc_write st _ _ r h

/-- The store-level capture loop only allocates: existing references keep their
grids and the store never shrinks. -/
lemma resolveCapturesS_reads (opp : StoneColor) (ns : List Position) :
    ∀ (st : Store) (cur : StoreBoard) (r : Nat), r < st.length →
      readRef (resolveCapturesS opp (st, cur) ns).1 r = readRef st r ∧
        st.length ≤ (resolveCapturesS opp (st, cur) ns).1.length := by
  induction ns with
  | nil => intro st cur r h; exact ⟨rfl, le_refl _⟩
  | cons n rest ih =>
    intro st cur r h
    have hunf : resolveCapturesS opp (st, cur) (n :: rest) =
        resolveCapturesS opp
          (if (⟨cur.size, readRef st cur.gridRef⟩ : Board).getStone n = opp then
            (if (⟨cur.size, readRef st cur.gridRef⟩ : Board).hasLiberties
                ((⟨cur.size, readRef st cur.gridRef⟩ : Board).getGroup n) then (st, cur)
             else removeStonesS st cur
                ((⟨cur.size, readRef st cur.gridRef⟩ : Board).getGroup n))
          else (st, cur)) rest := rfl
    rw [hunf]
    by_cases h1 : (⟨cur.size, readRef st cur.gridRef⟩ : Board).getStone n = opp
    · by_cases h2 : (⟨cur.size, readRef st cur.gridRef⟩ : Board).hasLiberties
          ((⟨cur.size, readRef st cur.gridRef⟩ : Board).getGroup n) = true
      · rw [if_pos h1, if_pos h2]
        exact ih st cur r h
      · rw [if_pos h1, if_neg (by simpa using h2)]
        have hlen := removeStonesS_length st cur
          ((⟨cur.size, readRef st cur.gridRef⟩ : Board).getGroup n)
        have hres := ih (removeStonesS st cur
            ((⟨cur.size, readRef st cur.gridRef⟩ : Board).getGroup n)).1
          (removeStonesS st cur
            ((⟨cur.size, readRef st cur.gridRef⟩ : Board).getGroup n)).2 r (by omega)
        have hread := readRef_removeStonesS st cur
          ((⟨cur.size, readRef st cur.gridRef⟩ : Board).getGroup n) r h
        rw [Prod.mk.eta] at hres
        exact ⟨by rw [hres.1, hread], by omega⟩
    · rw [if_neg h1]
      exact ih st cur r h

/-- C7: placeStone and removeStones never mutate the receiving board: whether the
placement succeeds or fails, the receiver's grid object is never written, so the
receiver reads identically (at every position) before and after either call. -/
theorem board_operations_never_mutate_receiver (st : Store) (b : StoreBoard)
    (p q : Position) (c : StoneColor) (ps : List Position) (h : b.gridRef < st.length) :
    getStoneS (placeStoneS st b p c).1 b q = getStoneS st b q ∧
      getStoneS (removeStonesS st b ps).1 b q = getStoneS st b q := by
  constructor
  · unfold getStoneS placeStoneS
    by_cases h1 : (⟨b.size, readRef st b.gridRef⟩ : Board).isValidPosition p = false
    · rw [if_pos h1]
    · rw [if_neg h1]
      by_cases h2 : (⟨b.size, readRef st b.gridRef⟩ : Board).getStone p ≠ .empty
      · rw [if_pos h2]
      · rw [if_neg h2]
        by_cases h3 : c = .empty
        · rw [if_pos h3]
        · rw [if_neg h3]
          dsimp only
          rw [apply_ite Prod.fst, ite_self]
          have hlen : b.gridRef <
              (writeRef (allocRef st (readRef st b.gridRef)).1
                (allocRef st (readRef st b.gridRef)).2
                (Board.setCell (readRef st b.gridRef) p c)).length := by
            simp [writeRef, allocRef]
            omega
          have hcap := (resolveCapturesS_reads (Board.opponentOf c)
            ((⟨b.size, readRef st b.gridRef⟩ : Board).getNeighbors p)
            (writeRef (allocRef st (readRef st b.gridRef)).1
              (allocRef st (readRef st b.gridRef)).2
              (Board.setCell (readRef st b.gridRef) p c))
            ⟨b.size, (allocRef st (readRef st b.gridRef)).2⟩ b.gridRef hlen).1
          rw [hcap]
          simp only [allocRef]
          rw [readRef_alloc_write st _ _ b.gridRef h]
  · unfold getStoneS
    rw [readRef_removeStonesS st b ps b.gridRef h]

theorem board_operations_never_mutate_receiver_witness :
    getStoneS (placeStoneS [[[.empty]]] ⟨1, 0⟩ ⟨0, 0⟩ .black).1 ⟨1, 0⟩ ⟨0, 0⟩ =
        getStoneS [[[.empty]]] ⟨1, 0⟩ ⟨0, 0⟩ ∧
      getStoneS (removeStonesS [[[.empty]]] ⟨1, 0⟩ [⟨0, 0⟩]).1 ⟨1, 0⟩ ⟨0, 0⟩ =
        getStoneS [[[.empty]]] ⟨1, 0⟩ ⟨0, 0⟩ :=
  board_operations_never_mutate_receiver [[[.empty]]] ⟨1, 0⟩ ⟨0, 0⟩ ⟨0, 0⟩ .black
    [⟨0, 0⟩] (by decide)

/-- C1 counterexample: with range [2,2] over a two-move game, the final board of
`applyMoves` differs from the final board with range [1,2], refuting the claim
that the pipeline replays all moves from move 1 through the end of the range. -/
theorem applyMoves_range_board_ne_from_move_one :
    (applyMoves (Board.emptyBoard 2)
        [⟨.black, some ⟨0, 0⟩, 1⟩, ⟨.white, some ⟨1, 1⟩, 2⟩] (some (2, 2)) none).board ≠
      (applyMoves (Board.emptyBoard 2)
        [⟨.black, some ⟨0, 0⟩, 1⟩, ⟨.white, some ⟨1, 1⟩, 2⟩] (some (1, 2)) none).board := by
  decide

/-- C1 amended: `applyMoves` with range [M,N] applies exactly the moves whose
moveNumber lies in [M,N] — its result coincides with running `applyMoves` on the
pre-filtered move list with no range; moves before M are never replayed. -/
theorem applyMoves_range_eq_prefiltered (b : Board) (moves : List Move) (M N : Nat)
    (idx : Option Nat) :
    applyMoves b moves (some (M, N)) idx =
      applyMoves b (moves.filter (fun m =>
        decide (M ≤ m.moveNumber) && decide (m.moveNumber ≤ N))) none idx := by
  cases idx <;> rfl

/-- C2 counterexample: for applied move 16 under range [16,18] the emitted label
is 1 — a renumbering from 1, not the move's own move number, and a value outside
the range [16,18]. -/
theorem generateMoveLabels_range_renumbers :
    mapGet (generateMoveLabels [⟨.black, some ⟨0, 0⟩, 16⟩] (some (16, 18))) ⟨0, 0⟩ =
        some 1 ∧ ¬ (16 ≤ 1 ∧ 1 ≤ 18) := by
  decide

/-- C2 amended: with a range [M,N], `generateMoveLabels` assigns sequential
labels starting at 1: every emitted label value lies between 1 and the number of
in-range positioned applied moves (rather than being the move's own move number
confined to [M,N]). -/
theorem generateMoveLabels_range_sequential (moves : List Move) (M N : Nat)
    (k : Position) (v : Nat)
    (h : (k, v) ∈ generateMoveLabels moves (some (M, N))) :
    1 ≤ v ∧ v ≤ (moves.filter (fun m =>
      m.position.isSome && decide (M ≤ m.moveNumber) &&
        decide (m.moveNumber ≤ N))).length := by
  unfold generateMoveLabels at h
  have hb := rangeLabelStep_bound M N moves ([], 1) (by norm_num)
    (by intro e he; simp at he) (k, v) h
  have hc := rangeLabelStep_count M N moves ([], 1)
  rw [hc] at hb
  simp at hb
  omega

theorem generateMoveLabels_range_sequential_witness :
    1 ≤ 1 ∧ 1 ≤ (([⟨.black, some ⟨0, 0⟩, 16⟩] : List Move).filter (fun m =>
      m.position.isSome && decide (16 ≤ m.moveNumber) &&
        decide (m.moveNumber ≤ 18))).length :=
  generateMoveLabels_range_sequential [⟨.black, some ⟨0, 0⟩, 16⟩] 16 18 ⟨0, 0⟩ 1 (by decide)

/-- C3 counterexample: a move onto an occupied, uncaptured cell is skipped
(absent from appliedMoves, board untouched) yet an OverwrittenLabel record for it
IS produced, refuting the claim that no record is emitted for a skipped move. -/
theorem applyMoves_occupied_skip_emits_record :
    (applyMoves (Board.emptyBoard 2)
        [⟨.black, some ⟨0, 0⟩, 1⟩, ⟨.white, some ⟨0, 0⟩, 2⟩] none none).appliedMoves =
        [⟨.black, some ⟨0, 0⟩, 1⟩] ∧
      (applyMoves (Board.emptyBoard 2)
        [⟨.black, some ⟨0, 0⟩, 1⟩, ⟨.white, some ⟨0, 0⟩, 2⟩] none none).overwrittenLabels =
        [⟨1, 2, ⟨0, 0⟩⟩] := by
  decide

/-- C3 amended: a move targeting a cell occupied by an earlier applied move's
uncaptured stone is skipped — absent from appliedMoves, board and ownership map
unchanged — but one OverwrittenLabel record naming the prior owner IS appended
(the record is pushed before the placement attempt fails). -/
theorem applyMovesStep_occupied_reuse (st : ApplyState) (move : Move) (pos : Position)
    (prev : Nat) (hpos : move.position = some pos)
    (hprev : mapGet st.movePositionMap pos = some prev)
    (hocc : st.board.getStone pos ≠ .empty) :
    applyMovesStep st move =
      { st with overwrittenLabels :=
          st.overwrittenLabels ++ [⟨prev, move.moveNumber, pos⟩] } := by
  unfold applyMovesStep
  simp only [hpos, hprev, placeStone_occupied st.board pos move.color hocc]

theorem applyMovesStep_occupied_reuse_witness :
    applyMovesStep
        ⟨⟨2, [[.black, .empty], [.empty, .empty]]⟩, [⟨.black, some ⟨0, 0⟩, 1⟩], [],
          [(⟨0, 0⟩, 1)]⟩ ⟨.white, some ⟨0, 0⟩, 2⟩ =
      ⟨⟨2, [[.black, .empty], [.empty, .empty]]⟩, [⟨.black, some ⟨0, 0⟩, 1⟩],
        [⟨1, 2, ⟨0, 0⟩⟩], [(⟨0, 0⟩, 1)]⟩ :=
  applyMovesStep_occupied_reuse
    ⟨⟨2, [[.black, .empty], [.empty, .empty]]⟩, [⟨.black, some ⟨0, 0⟩, 1⟩], [],
      [(⟨0, 0⟩, 1)]⟩ ⟨.white, some ⟨0, 0⟩, 2⟩ ⟨0, 0⟩ 1 rfl (by decide) (by decide)

/-- C4: capture resolution happens before the suicide check: whenever a move
fills the last liberty of an adjacent opposing group (the group has no liberties
once the stone is placed), the placement succeeds — the opposing group is wholly
removed and the placed stone remains — even though before the capture is
resolved the placed stone's own group may have zero liberties. -/
theorem placeStone_captures_before_suicide (b : Board) (p : Position) (c : StoneColor)
    (n : Position) (hwf : Board.WF b) (hv : b.isValidPosition p = true)
    (he : b.getStone p = .empty) (hc : c ≠ .empty) (hn : n ∈ b.getNeighbors p)
    (hopp : (Board.afterPlacement b p c).getStone n = Board.opponentOf c)
    (hlib : (Board.afterPlacement b p c).hasLiberties
      ((Board.afterPlacement b p c).getGroup n) = false) :
    ∃ b2, b.placeStone p c = .ok b2 ∧ b2.getStone p = c ∧
      ∀ z ∈ (Board.afterPlacement b p c).getGroup n, b2.getStone z = .empty := by
  have hwf1 : Board.WF (Board.afterPlacement b p c) := Board.WF_afterPlacement b p c hwf hv
  have hp1 : (Board.afterPlacement b p c).getStone p = c :=
    Board.getStone_afterPlacement_self b p c hwf hv
  have hinv0 : CaptureInv p c n ((Board.afterPlacement b p c).getGroup n) b.size
      (Board.afterPlacement b p c) :=
    ⟨rfl, hwf1, hp1, Or.inr ⟨hopp, fun z => Iff.rfl, hlib⟩⟩
  obtain ⟨hinv, hfin⟩ := Board.resolveCaptures_walk p c n
    ((Board.afterPlacement b p c).getGroup n) b.size hc
    (b.getNeighbors p) (Board.afterPlacement b p c) hinv0
  have hempty := hfin (Or.inl hn)
  have hpc : (Board.boardAfterCapturesOf b p c).getStone p = c := hinv.2.2.1
  have hnG0 : n ∈ (Board.afterPlacement b p c).getGroup n :=
    Board.self_mem_getGroup _ n (by rw [hopp]; exact Board.opponentOf_ne_empty c)
  have hnempty : (Board.boardAfterCapturesOf b p c).getStone n = .empty := hempty n hnG0
  have hnnb : n ∈ (Board.boardAfterCapturesOf b p c).getNeighbors p := by
    rw [← Board.getNeighbors_congr b (Board.boardAfterCapturesOf b p c) p hinv.1.symm]
    exact hn
  have hlibp : (Board.boardAfterCapturesOf b p c).hasLiberties
      ((Board.boardAfterCapturesOf b p c).getGroup p) = true :=
    (Board.hasLiberties_iff _ _).2 ⟨p,
      Board.self_mem_getGroup _ p (by rw [hpc]; exact hc), n, hnnb, hnempty⟩
  exact ⟨Board.boardAfterCapturesOf b p c,
    Board.placeStone_ok_of b p c hv he hc hlibp, hpc, hempty⟩

theorem placeStone_captures_before_suicide_witness :
    ∃ b2, (⟨2, [[.white, .black], [.empty, .empty]]⟩ : Board).placeStone ⟨0, 1⟩ .black =
        .ok b2 ∧ b2.getStone ⟨0, 1⟩ = .black ∧
      ∀ z ∈ (Board.afterPlacement (⟨2, [[.white, .black], [.empty, .empty]]⟩ : Board)
          ⟨0, 1⟩ .black).getGroup ⟨0, 0⟩, b2.getStone z = .empty :=
  placeStone_captures_before_suicide ⟨2, [[.white, .black], [.empty, .empty]]⟩
    ⟨0, 1⟩ .black ⟨0, 0⟩ (by constructor <;> decide) (by decide) (by decide)
    (by decide) (by decide) (by decide) (by decide)

/-- C10: when a placement succeeds, every cell that held a stone before and is
empty afterwards held the opponent colour (own stones are never removed), and
the only cell that gains a stone is the placed one. -/
theorem placeStone_respects_ownership (b : Board) (p : Position) (c : StoneColor)
    (b2 : Board) (hwf : Board.WF b) (hok : b.placeStone p c = .ok b2) (q : Position) :
    (b.getStone q ≠ .empty → b2.getStone q = .empty →
      b.getStone q = Board.opponentOf c) ∧
    (b.getStone q = .empty → b2.getStone q ≠ .empty → q = p) := by
  obtain ⟨hv, he, hc, hb2⟩ := Board.placeStone_ok_inversion b p c b2 hok
  subst hb2
  have hwf1 := Board.WF_afterPlacement b p c hwf hv
  obtain ⟨hch, _, _⟩ := Board.resolveCaptures_changes (Board.opponentOf c)
    (b.getNeighbors p) (Board.afterPlacement b p c) hwf1
  constructor
  · intro hne hempty
    have hqp : q ≠ p := by
      intro h
      rw [h, he] at hne
      exact hne rfl
    have hb1 : (Board.afterPlacement b p c).getStone q = b.getStone q :=
      Board.getStone_afterPlacement_ne b p q c hwf hv hqp
    unfold Board.boardAfterCapturesOf at hempty
    rcases hch q with h | h
    · rw [hempty] at h
      rw [hb1] at h
      exact absurd h.symm hne
    · rw [hb1] at h
      exact h.1
  · intro hqe hne2
    by_contra hqp
    have hb1 : (Board.afterPlacement b p c).getStone q = b.getStone q :=
      Board.getStone_afterPlacement_ne b p q c hwf hv hqp
    unfold Board.boardAfterCapturesOf at hne2
    rcases hch q with h | h
    · rw [h, hb1, hqe] at hne2
      exact hne2 rfl
    · rw [hb1, hqe] at h
      exact Board.opponentOf_ne_empty c h.1.symm

theorem placeStone_respects_ownership_witness :
    ((⟨2, [[.white, .black], [.empty, .empty]]⟩ : Board).getStone ⟨0, 0⟩ ≠ .empty →
      (⟨2, [[.empty, .black], [.black, .empty]]⟩ : Board).getStone ⟨0, 0⟩ = .empty →
      (⟨2, [[.white, .black], [.empty, .empty]]⟩ : Board).getStone ⟨0, 0⟩ =
        Board.opponentOf .black) ∧
    ((⟨2, [[.white, .black], [.empty, .empty]]⟩ : Board).getStone ⟨0, 0⟩ = .empty →
      (⟨2, [[.empty, .black], [.black, .empty]]⟩ : Board).getStone ⟨0, 0⟩ ≠ .empty →
      (⟨0, 0⟩ : Position) = ⟨0, 1⟩) :=
  placeStone_respects_ownership ⟨2, [[.white, .black], [.empty, .empty]]⟩ ⟨0, 1⟩ .black
    ⟨2, [[.empty, .black], [.black, .empty]]⟩ (by constructor <;> decide) rfl
    ⟨0, 0⟩

/-- C5: `applyMoves` never surfaces an error to its caller — at the exception
level, where any uncaught `placeStone` throw would propagate, the run always
returns `ok` of the total result: every per-move failure is recovered by the
per-move catch. -/
theorem applyMovesE_never_errors (board : Board) (moves : List Move)
    (moveRange : Option (Nat × Nat)) (moveIndex : Option Nat) :
    applyMovesE board moves moveRange moveIndex =
      .ok (applyMoves board moves moveRange moveIndex) := by
  unfold applyMovesE applyMoves
  rw [foldlM_applyMovesStepE_ok]
  rfl

/-- C6: a placement whose group still has zero liberties after all opponent
captures are resolved fails with the suicide error and returns no board. -/
theorem placeStone_suicide (b : Board) (p : Position) (c : StoneColor)
    (hv : b.isValidPosition p = true) (he : b.getStone p = .empty) (hc : c ≠ .empty)
    (hs : (Board.boardAfterCapturesOf b p c).hasLiberties
        ((Board.boardAfterCapturesOf b p c).getGroup p) = false) :
    b.placeStone p c =
      .error ("Suicide move not allowed: " ++ toString p.x ++ ", " ++ toString p.y) := by
  simp [Board.placeStone, hv, he, hc, hs]

theorem placeStone_suicide_witness :
    (⟨2, [[.empty, .white], [.white, .empty]]⟩ : Board).placeStone ⟨0, 0⟩ .black =
      .error ("Suicide move not allowed: " ++ toString (0 : Int) ++ ", " ++
        toString (0 : Int)) :=
  placeStone_suicide ⟨2, [[.empty, .white], [.white, .empty]]⟩ ⟨0, 0⟩ .black
    (by decide) (by decide) (by decide) (by decide)

/-- C8: the overwritten-label filtering of `convertSgfToImage` retains exactly
the records whose originalMove is among the visible display numbers, hence never
returns a record whose originalMove is absent from the visible label set. -/
theorem mem_filterOverwrittenLabels_iff (ols : List OverwrittenLabel) (labels : PosMap)
    (r : OverwrittenLabel) :
    r ∈ filterOverwrittenLabels ols labels ↔
      r ∈ ols ∧ r.originalMove ∈ visibleDisplayNumbers labels := by
  simp [filterOverwrittenLabels, List.mem_filter]

/-- C9: `getStone` is total and returns `empty` for every out-of-range position,
negative coordinates included. -/
theorem getStone_out_of_range (b : Board) (p : Position)
    (h : b.isValidPosition p = false) : b.getStone p = .empty := by
  simp [Board.getStone, h]

theorem getStone_out_of_range_witness :
    (Board.emptyBoard 3).isValidPosition ⟨-1, 5⟩ = false ∧
      (Board.emptyBoard 3).getStone ⟨-1, 5⟩ = .empty :=
  ⟨by decide, getStone_out_of_range (Board.emptyBoard 3) ⟨-1, 5⟩ (by decide)⟩

end SgfToImage
